import Mathlib

/-!
Verification of the AWK-style record-processing library (package `awk`).

The definitions below are a shallow embedding of the Go source.  The
authoritative implementation is the draft contained in `script_test.go`
(lines 380-1309) together with `value.go`; the claims cite those lines.

Modelling conventions:
* Go `int` is 64-bit; we use `Int` with explicit clamping where the code's
  use of `strconv.ParseInt` clamps on range errors.
* Go strings are modelled as `String`/`List Char`; the byte-level scanners
  operate on runes, which we model as `Char` (the `utf8.RuneError` branches
  handle buffers split mid-rune, an artifact of byte buffering that cannot
  arise at the `Char` level).
* `float64` values and the host's `fmt.Sprintf`/`regexp` engines are
  external collaborators (spec section 6); they are abstracted as the
  parameters `FloatModel` and `RegexEngine`.  No claim depends on their
  internals, only on how the Go code reacts to their results.
-/

namespace Awk

/-! ## Character classes used by the `matchInt` regular expression

`matchInt = regexp.MustCompile("^\\s*([-+]?\\d+)")` (value.go line 105).
In Go's RE2, `\s` is the ASCII class [\t\n\f\r ] and `\d` is [0-9]. -/

def isGoSpace (c : Char) : Bool :=
  c == ' ' || c == '\t' || c == '\n' || c == '\r' || c == Char.ofNat 12

/-- Numeric value of a digit string (most significant digit first). -/
def digitsToNat (ds : List Char) : Nat :=
  ds.foldl (fun a c => a * 10 + (c.toNat - 48)) 0

def int64Max : Int := 9223372036854775807

def int64Min : Int := -9223372036854775808

/-- `strconv.ParseInt(_, 10, 0)` clamps out-of-range values to the int64
bounds and reports `ErrRange`; `Value.Int` ignores the error and keeps the
clamped value (value.go line 119). -/
def clampInt64 (n : Int) : Int :=
  if n > int64Max then int64Max else if n < int64Min then int64Min else n

/-- The capture group of `matchInt` applied at the start of the string:
maximal run of `\s`, optional single sign, then a maximal nonempty run of
digits.  Returns the sign and the digit run, or `none` when the regular
expression does not match (RE2 leftmost match anchored by `^`; shorter
matches of `\s*` cannot succeed because the next character is still a
space, so the scan below is exactly the regex semantics). -/
def intCapture (cs : List Char) : Option (Bool × List Char) :=
  match cs.dropWhile isGoSpace with
  | '+' :: u =>
    let d := u.takeWhile Char.isDigit
    if d = [] then none else some (false, d)
  | '-' :: u =>
    let d := u.takeWhile Char.isDigit
    if d = [] then none else some (true, d)
  | u =>
    let d := u.takeWhile Char.isDigit
    if d = [] then none else some (false, d)

/-- The string-to-int conversion of `Value.Int` (value.go lines 114-122):
`matchInt.FindStringSubmatch` followed by `strconv.ParseInt(strs[1], 10, 0)`
with the error discarded; `0` when the regular expression does not match. -/
def goStringToInt (cs : List Char) : Int :=
  match intCapture cs with
  | none => 0
  | some (neg, d) =>
    clampInt64 (if neg then -(digitsToNat d : Int) else (digitsToNat d : Int))

/-! ## The Value data type (value.go) -/

/-- Abstraction of the host float64 operations a `Value` can touch.  The
spec keeps `float64` arithmetic and `%.6g` formatting outside the core
(host printf, section 6); no claim below depends on their behaviour. -/
structure FloatModel (ρ : Type) where
  zero : ρ
  toInt : ρ → Int
  fmt : String → ρ → String

/-- `Value` (value.go lines 17-27): cached int / float / string projections
with their populated flags.  The back-pointer to the owning script is
passed explicitly to the operations that need it. -/
structure Value (ρ : Type) where
  ival : Int
  fval : ρ
  sval : String
  ivalOk : Bool
  fvalOk : Bool
  svalOk : Bool
deriving DecidableEq

/-- `NewValue` on a Go `string` (value.go lines 90-92). -/
def newValueStr (fm : FloatModel ρ) (s : String) : Value ρ :=
  ⟨0, fm.zero, s, false, false, true⟩

/-- `NewValue` on a Go `int`/`int64` (value.go lines 54-68). -/
def newValueInt (fm : FloatModel ρ) (n : Int) : Value ρ :=
  ⟨n, fm.zero, "", true, false, false⟩

/-- `NewValue` on a Go `float64` (value.go lines 76-81). -/
def newValueFloat (_fm : FloatModel ρ) (f : ρ) : Value ρ :=
  ⟨0, f, "", false, true, false⟩

/-- `Value.Int` (value.go lines 107-125).  The lazy cache write is not
externally observable, so the projection is modelled as a pure function. -/
def Value.intProj (fm : FloatModel ρ) (v : Value ρ) : Int :=
  if v.ivalOk then v.ival
  else if v.fvalOk then fm.toInt v.fval
  else if v.svalOk then goStringToInt v.sval.data
  else v.ival

/-- `Value.String` (value.go lines 149-161); `convFmt` is the owning
script's `ConvFmt`, consulted only for float-primary values. -/
def Value.strProj (fm : FloatModel ρ) (convFmt : String) (v : Value ρ) : String :=
  if v.svalOk then v.sval
  else if v.ivalOk then toString v.ival
  else if v.fvalOk then fm.fmt convFmt v.fval
  else v.sval

/-! ## Spec-modelled string-to-int (claim C4)

The sentence under test reads: "string to int: best-effort parse of the
longest suffix-trimmed prefix that parses as signed decimal (repeatedly
strip trailing Unicode code points until the remainder parses or is
empty); value 0 if no prefix parses."  The two definitions below follow
those words; they are compared against `goStringToInt`, the definition
taken from the source. -/

/-- Modelled from the spec: "parses as signed decimal" - an optional sign
followed by one or more decimal digits, covering the whole string.  (The
spec names `\s*` explicitly in its string-to-float grammar and omits it
here, so leading whitespace is not part of a signed decimal.) -/
def parsesSignedDec (cs : List Char) : Option Int :=
  match cs with
  | '+' :: u => if u ≠ [] ∧ u.all Char.isDigit then some (digitsToNat u) else none
  | '-' :: u => if u ≠ [] ∧ u.all Char.isDigit then some (-(digitsToNat u : Int)) else none
  | u => if u ≠ [] ∧ u.all Char.isDigit then some (digitsToNat u) else none

/-- Modelled from the spec: like `parsesSignedDec` but additionally
allowing leading ASCII whitespace and clamping out-of-range values to the
int64 bounds (the amendment claim C4 is corrected to). -/
def parsesSignedDecWS (cs : List Char) : Option Int :=
  match cs.dropWhile isGoSpace with
  | '+' :: u =>
    if u ≠ [] ∧ u.all Char.isDigit then some (clampInt64 (digitsToNat u)) else none
  | '-' :: u =>
    if u ≠ [] ∧ u.all Char.isDigit then some (clampInt64 (-(digitsToNat u : Int))) else none
  | u =>
    if u ≠ [] ∧ u.all Char.isDigit then some (clampInt64 (digitsToNat u)) else none

/-- The trailing-strip loop, processing the string through its reversed
character list so that stripping the last code point is structural
recursion: `stripAux parse rev` is the result of the spec's procedure on
the string `rev.reverse`. -/
def stripAux (parse : List Char → Option Int) : List Char → Int
  | [] => (parse []).getD 0
  | c :: rev =>
    match parse ((c :: rev).reverse) with
    | some n => n
    | none => stripAux parse rev

/-- Modelled from the spec: "repeatedly strip trailing Unicode code points
until the remainder parses or is empty; value 0 if no prefix parses". -/
def stripUntilParses (parse : List Char → Option Int) (cs : List Char) : Int :=
  stripAux parse cs.reverse

/-! ## The Script engine state (script_test.go lines 399-482) -/

/-- `parseState` (script_test.go lines 403-408). -/
inductive ParseState where
  | notRunning
  | atBegin
  | inMiddle
  | atEnd
deriving DecidableEq

/-- `stopState` (script_test.go lines 414-418). -/
inductive StopState where
  | dontStop
  | stopRec
  | stopScript
deriving DecidableEq

/-- Abstraction of the host regular-expression engine (`regexp` package):
compilation, which may fail, and leftmost-match search returning the byte
span `[start, stop)` of the first match. -/
structure RegexEngine (ξ : Type) where
  compile : String → Option ξ
  find : ξ → String → Option (Nat × Nat)

/-- The Script state (script_test.go lines 427-458).  Fields not needed by
any claim (output sink, Begin/End slots - passed separately to `Run` -,
field widths, FPat, MaxRecordSize, ...) are omitted.  `remaining` models
the records the primary scanner (`rsScanner`) has yet to yield, and
`getlineState` models the auxiliary-reader registry, each shadow script
reduced to the records its own scanner has yet to yield.  `userState`
models the opaque caller-supplied `State` slot. -/
structure Script (ρ ξ : Type) where
  ConvFmt : String
  NR : Int
  NF : Int
  RT : String
  RStart : Int
  RLength : Int
  nf0 : Int
  rs : String
  fs : String
  ofs : String
  ignCase : Bool
  fields : List (Value ρ)
  regexps : List (String × ξ)
  remaining : List String
  getlineState : List (Nat × List String)
  state : ParseState
  stop : StopState
  userState : Int
deriving DecidableEq

/-- `NewScript` (script_test.go lines 461-482), restricted to the modelled
fields.  `RStart`/`RLength`/`RT` start at Go zero values. -/
def NewScript : Script ρ ξ where
  ConvFmt := "%.6g"
  NR := 0
  NF := 0
  RT := ""
  RStart := 0
  RLength := 0
  nf0 := 0
  rs := "\n"
  fs := " "
  ofs := " "
  ignCase := false
  fields := []
  regexps := []
  remaining := []
  getlineState := []
  state := ParseState.notRunning
  stop := StopState.dontStop
  userState := 0

/-! ## Regexp cache (script_test.go lines 862-877) -/

/-- Association-list lookup used to model the Go maps. -/
def alistFind (k : String) : List (String × ξ) → Option ξ
  | [] => none
  | (k', v) :: rest => if k' = k then some v else alistFind k rest

/-- `compileRegexp` (script_test.go lines 862-877): prepend `(?i)` when
`ignCase` is set, consult the cache, otherwise compile and cache the
result; a compilation failure is returned without touching the cache. -/
def compileRegexp (rx : RegexEngine ξ) (s : Script ρ ξ) (expr : String) :
    Option ξ × Script ρ ξ :=
  let key := if s.ignCase then "(?i)" ++ expr else expr
  match alistFind key s.regexps with
  | some re => (some re, s)
  | none =>
    match rx.compile key with
    | none => (none, s)
    | some re => (some re, { s with regexps := (key, re) :: s.regexps })

/-- `Value.Match` (value.go lines 163-184).  Returns the match result and
the updated script.  On a compilation failure it returns `false` silently,
leaving the script (in particular `RStart`/`RLength`) untouched; on a
completed search it writes `RStart`/`RLength`. -/
def Value.MatchV (fm : FloatModel ρ) (rx : RegexEngine ξ) (v : Value ρ)
    (expr : String) (s : Script ρ ξ) : Bool × Script ρ ξ :=
  match compileRegexp rx s expr with
  | (none, s1) => (false, s1)
  | (some re, s1) =>
    match rx.find re (v.strProj fm s1.ConvFmt) with
    | none => (false, { s1 with RStart := 0, RLength := -1 })
    | some (a, b) => (true, { s1 with RStart := (a : Int) + 1, RLength := (b : Int) - a })

/-! ## Fields (script_test.go lines 569-654) -/

/-- The read phase of `F` (script_test.go lines 594-597): the stored field
when the index is within the slice, an empty-string Value otherwise.
A negative Go index would panic (claims keep indices non-negative, so the
model uses `Nat`); `F` itself adds the field-0 recomputation. -/
def Fget (fm : FloatModel ρ) (s : Script ρ ξ) (i : Nat) : Value ρ :=
  if h : i < s.fields.length then s.fields.get ⟨i, h⟩ else newValueStr fm ""

/-- `FStrings` (script_test.go lines 629-635): the strings of fields
`1..NF` (for nonzero indices `F` performs no recomputation, so it reads as
`Fget`).  A negative `NF` would make Go's `make([]string, s.NF)` panic;
`Int.toNat` confines the model to the non-panicking domain. -/
def FStrings (fm : FloatModel ρ) (s : Script ρ ξ) : List String :=
  (List.range s.NF.toNat).map fun i => (Fget fm s (i + 1)).strProj fm s.ConvFmt

/-- `recomputeF0` (script_test.go lines 570-575): rebuild `fields[0]` as
the `OFS`-join of fields `1..NF`, then record `nf0 = NF`. -/
def recomputeF0 (fm : FloatModel ρ) (s : Script ρ ξ) : Script ρ ξ :=
  let s1 :=
    if 1 ≤ s.fields.length then
      { s with fields := s.fields.set 0 (newValueStr fm (String.intercalate s.ofs (FStrings fm s))) }
    else s
  { s1 with nf0 := s.NF }

/-- `F` (script_test.go lines 590-598): recompute `fields[0]` when stale,
then read.  Returns the value together with the (possibly) updated
script. -/
def F (fm : FloatModel ρ) (s : Script ρ ξ) (i : Nat) : Value ρ × Script ρ ξ :=
  let s1 := if i = 0 ∧ s.NF ≠ s.nf0 then recomputeF0 fm s else s
  (Fget fm s1 i, s1)

/-- `splitRecord` (script_test.go lines 1158-1174): split a record into
fields with the splitter for the current configuration - abstracted as the
parameter `fieldSplit` (spec section 4.5; no claim below depends on the
mode internals) - store them behind the full record text, and set `NF` and
`nf0`.  Field-splitter errors are not modelled (none of the claims
involves them). -/
def splitRecord (fm : FloatModel ρ) (fieldSplit : String → List String)
    (rec : String) (s : Script ρ ξ) : Script ρ ξ :=
  let fields := newValueStr fm rec :: (fieldSplit rec).map (newValueStr fm)
  { s with fields := fields, NF := (fields.length : Int) - 1,
           nf0 := (fields.length : Int) - 1 }

/-- `SetF` (script_test.go lines 605-625) for a positive index: extend the
field slice with empty-string Values when the index is beyond it (updating
`NF`), write the field, and mark `fields[0]` stale (`nf0 = -1`).  Index 0
instead reparses the record via `splitRecord` (modelled separately by the
caller since the claims only exercise `i ≥ 1`). -/
def SetF (fm : FloatModel ρ) (i : Nat) (v : Value ρ) (s : Script ρ ξ) : Script ρ ξ :=
  let s1 :=
    if s.fields.length ≤ i then
      let fields' := s.fields ++ List.replicate (i + 1 - s.fields.length) (newValueStr fm "")
      { s with fields := fields', NF := (fields'.length : Int) - 1 }
    else s
  { s1 with fields := s1.fields.set i v, nf0 := -1 }

/-- `SetRS` (script_test.go lines 519-524): calling it while records are
being read aborts the script (`abortScript` sets the stop signal and
panics with a `scriptAborter`, which `Run` converts into its error
return); otherwise the new record separator is installed. -/
def SetRS (rs : String) (s : Script ρ ξ) : Except String (Script ρ ξ) :=
  if s.state = ParseState.inMiddle then
    Except.error "SetRS was called from a running script"
  else
    Except.ok { s with rs := rs }

/-! ## Stop signals (script_test.go lines 719-731) -/

/-- `Next` (script_test.go lines 719-724): set the stop signal to
`stopRec` only if it is still clear, then unwind by panicking with a
`recordStopper` (the unwinding is modelled by the `Outcome` an action
reports). -/
def Next (s : Script ρ ξ) : Script ρ ξ :=
  if s.stop = StopState.dontStop then { s with stop := StopState.stopRec } else s

/-- `Exit` (script_test.go lines 727-731): set the stop signal to
`stopScript` only if it is still clear; execution continues (no panic). -/
def Exit (s : Script ρ ξ) : Script ρ ξ :=
  if s.stop = StopState.dontStop then { s with stop := StopState.stopScript } else s

/-! ## Rules and the run loop (script_test.go lines 690-704, 1181-1309) -/

/-- How an action body finishes: normally, by the `recordStopper` panic
thrown by `Next`, or by the `scriptAborter` panic thrown by
`abortScript` (carrying the error message `Run` will return). -/
inductive Outcome where
  | normal
  | nextUnwind
  | abort (msg : String)
deriving DecidableEq

/-- `ActionFunc`: an arbitrary body that may mutate the script and finish
with one of the `Outcome`s. -/
def ActionFunc (ρ ξ : Type) := Script ρ ξ → Script ρ ξ × Outcome

/-- `PatternFunc`: an arbitrary predicate on the script state (it may
mutate the state, e.g. the latch of `Range` or the regexp cache). -/
def PatternFunc (ρ ξ : Type) := Script ρ ξ → Script ρ ξ × Bool

/-- `statement` (script_test.go lines 701-704). -/
structure Statement (ρ ξ : Type) where
  Pattern : PatternFunc ρ ξ
  Action : ActionFunc ρ ξ

/-- `matchAny` (script_test.go lines 708-710): true only in the middle of
a script. -/
def matchAny (s : Script ρ ξ) : Script ρ ξ × Bool :=
  (s, s.state = ParseState.inMiddle)

/-- The rule dispatch inside the record loop (script_test.go lines
1271-1294): run each matching action in order; stop at the first action
that sets a stop signal, throws a `recordStopper` (caught by the per-record
`recover`), or aborts the script (returned as `some msg`, which `Run`
converts to its error result). -/
def runRules (rules : List (Statement ρ ξ)) (s : Script ρ ξ) :
    Script ρ ξ × Option String :=
  match rules with
  | [] => (s, none)
  | rule :: rest =>
    if (rule.Pattern s).2 then
      match rule.Action (rule.Pattern s).1 with
      | (s2, Outcome.normal) =>
        if s2.stop = StopState.dontStop then runRules rest s2 else (s2, none)
      | (s2, Outcome.nextUnwind) => (s2, none)
      | (s2, Outcome.abort msg) => (s2, some msg)
    else runRules rest (rule.Pattern s).1

/-- Result of `Run`: normal completion, the first error, or an uncaught
non-`scriptAborter` panic re-thrown past `Run` (e.g. `Next` called from an
End handler).  `fuelOut` is an artifact of the embedding: the Go loop has
no such exit, and the theorems below show it is unreachable whenever the
fuel exceeds the number of pending records and the actions do not grow the
input stream. -/
inductive RunResult where
  | ok
  | err (msg : String)
  | panicked
  | fuelOut
deriving DecidableEq

/-- The per-record state update at the top of the record loop
(script_test.go lines 1252-1262): clear the stop signal, consume the
record from the scanner, and increment `NR`. -/
def stepState (s : Script ρ ξ) (rest : List String) : Script ρ ξ :=
  { s with stop := StopState.dontStop, remaining := rest, NR := s.NR + 1 }

/-- The EOF epilogue of the record loop (script_test.go lines 1302-1308):
run the End handler, if present, at `atEnd`, then return to `notRunning`.
An End handler that panics with a `recordStopper` (`Next`) escapes `Run`'s
`recover` (which re-throws anything that is not a `scriptAborter`). -/
def runEOF (endA : Option (ActionFunc ρ ξ)) (s : Script ρ ξ) :
    RunResult × Script ρ ξ :=
  match endA with
  | none => (RunResult.ok, { s with state := ParseState.notRunning })
  | some ea =>
    match ea { s with state := ParseState.atEnd } with
    | (s2, Outcome.normal) => (RunResult.ok, { s2 with state := ParseState.notRunning })
    | (s2, Outcome.nextUnwind) => (RunResult.panicked, s2)
    | (s2, Outcome.abort msg) => (RunResult.err msg, s2)

/-- The record loop of `Run` (script_test.go lines 1250-1308): read and
process records until EOF; an action abort returns the error; the
`stopScript` signal returns nil immediately; at EOF the End handler, if
present, runs at `atEnd` and the state returns to `notRunning`. -/
def runLoop (fm : FloatModel ρ) (fieldSplit : String → List String)
    (rules : List (Statement ρ ξ)) (endA : Option (ActionFunc ρ ξ)) :
    Nat → Script ρ ξ → RunResult × Script ρ ξ
  | 0, s => (RunResult.fuelOut, s)
  | Nat.succ k, s =>
    match s.remaining with
    | [] => runEOF endA s
    | rec :: rest =>
      let rr := runRules rules (splitRecord fm fieldSplit rec (stepState s rest))
      match rr.2 with
      | some msg => (RunResult.err msg, rr.1)
      | none =>
        if rr.1.stop = StopState.stopScript then (RunResult.ok, rr.1)
        else runLoop fm fieldSplit rules endA k rr.1

/-- `Run` (script_test.go lines 1220-1309): reinitialize `ConvFmt`, `NF`
and `NR`, run the Begin handler (at `atBegin`) if present, bind the record
scanner to the source (`recs` abstracts the records the scanner will yield
for the configuration left by Begin), switch to `inMiddle` and run the
record loop. -/
def Run (fm : FloatModel ρ) (fieldSplit : String → List String)
    (rules : List (Statement ρ ξ)) (beginA endA : Option (ActionFunc ρ ξ))
    (recs : List String) (fuel : Nat) (s : Script ρ ξ) : RunResult × Script ρ ξ :=
  let s0 := { s with ConvFmt := "%.6g", NF := 0, NR := 0 }
  let bg : Script ρ ξ × Outcome :=
    match beginA with
    | none => (s0, Outcome.normal)
    | some ba => ba { s0 with state := ParseState.atBegin }
  match bg with
  | (s1, Outcome.abort msg) => (RunResult.err msg, s1)
  | (s1, Outcome.nextUnwind) => (RunResult.panicked, s1)
  | (s1, Outcome.normal) =>
    runLoop fm fieldSplit rules endA fuel
      { s1 with remaining := recs, state := ParseState.inMiddle }

/-! ## GetLine (script_test.go lines 1181-1216) -/

/-- Association-list operations modelling the `getlineState` map. -/
def auxFind (k : Nat) : List (Nat × List String) → Option (List String)
  | [] => none
  | (k', v) :: rest => if k' = k then some v else auxFind k rest

def auxSet (k : Nat) (v : List String) : List (Nat × List String) →
    List (Nat × List String)
  | [] => [(k, v)]
  | (k', v') :: rest => if k' = k then (k, v) :: rest else (k', v') :: auxSet k v rest

/-- `GetLine` (script_test.go lines 1181-1216).  With a nil reader it reads
the next record from the primary scanner and increments `NR`; with an
auxiliary reader it reads through that reader's shadow script, registered
on first use (`Copy` of the configuration plus a fresh scanner, abstracted
here to the records `auxInput` says the reader will yield), leaving the
primary script's `NR` untouched.  `none` stands for the `io.EOF` (or
scanner error) return. -/
def GetLine (fm : FloatModel ρ) (auxInput : Nat → List String)
    (r : Option Nat) (s : Script ρ ξ) : Option (Value ρ) × Script ρ ξ :=
  match r with
  | none =>
    match s.remaining with
    | [] => (none, s)
    | rec :: rest =>
      (some (newValueStr fm rec), { s with remaining := rest, NR := s.NR + 1 })
  | some id =>
    let pending := (auxFind id s.getlineState).getD (auxInput id)
    match pending with
    | [] => (none, { s with getlineState := auxSet id [] s.getlineState })
    | rec :: rest =>
      (some (newValueStr fm rec), { s with getlineState := auxSet id rest s.getlineState })

/-! ## Range (script_test.go lines 736-747) -/

/-- One evaluation of the pattern built by `Range(p1, p2)`: given the
private latch, return the pattern's result and the new latch.  When the
latch is off, `p1` is consulted (and its result latches); when on, the
result is true and the latch becomes the negation of `p2`. -/
def RangeStep (p1 p2 : α → Bool) (inRange : Bool) (r : α) : Bool × Bool :=
  if inRange then (true, !p2 r) else (p1 r, p1 r)

/-- The value sequence produced by a `Range(p1, p2)` pattern evaluated once
per record, starting from the given latch (`Range` initializes it to
`false`). -/
def rangeList (p1 p2 : α → Bool) (inRange : Bool) : List α → List Bool
  | [] => []
  | r :: rest =>
    let st := RangeStep p1 p2 inRange r
    st.1 :: rangeList p1 p2 st.2 rest

/-! ## Record splitters (script_test.go lines 1063-1140) -/

/-- The single-code-point record splitter (script_test.go lines 1077-1102),
one invocation: `RT` is assigned the terminator string at the top of every
call; the data is scanned for the terminator, yielding the bytes before it
and advancing past it; at EOF with no terminator the nonempty remainder is
yielded as a final record.  Result: ((advance, token?), new RT). -/
def scanForTerm (rs : Char) : List Char → Option Nat
  | [] => none
  | c :: rest => if c = rs then some 0 else (scanForTerm rs rest).map (· + 1)

def singleCharRecordSplit (rs : Char) (data : List Char) (atEOF : Bool) :
    (Nat × Option (List Char)) × String :=
  let rt := String.mk [rs]
  match scanForTerm rs data with
  | some i => ((i + 1, some (data.take i)), rt)
  | none =>
    if atEOF ∧ data ≠ [] then ((data.length, some data), rt)
    else ((0, none), rt)

/-- The regular-expression record splitter (script_test.go lines
1109-1139), covering both multi-code-point `RS` and paragraph mode (empty
`RS`, where the compiled pattern is the blank-line regex): `find` is the
compiled terminator's leftmost-match search.  On a match, `RT` is the
matched substring and the bytes before it are yielded; at EOF with no
match the nonempty remainder is yielded with `RT` set empty.  The third
component is the `RT` update (`none` when the splitter just requests more
data, leaving `RT` alone). -/
def regexRecordSplit (find : List Char → Option (Nat × Nat))
    (data : List Char) (atEOF : Bool) :
    (Nat × Option (List Char)) × Option String :=
  match find data with
  | some (a, b) => ((b, some (data.take a)), some (String.mk ((data.drop a).take (b - a))))
  | none =>
    if atEOF ∧ data ≠ [] then ((data.length, some data), some "")
    else ((0, none), none)

/-! ## Spec-side definitions for the claims that compare against the
spec's wording, plus concrete instantiations used by witnesses. -/

mutual

/-- Modelled from the claim on `range(p1, p2)` (spec P7), outside an
interval: records are false until one satisfies `p1`, which starts an
interval. -/
def specRangeOut (p1 p2 : α → Bool) : List α → List Bool
  | [] => []
  | r :: rest =>
    if p1 r then true :: specRangeIn p1 p2 rest else false :: specRangeOut p1 p2 rest

/-- Modelled from the claim on `range(p1, p2)` (spec P7), inside an
interval: records are true up to and including the next one satisfying
`p2`, which ends the interval. -/
def specRangeIn (p1 p2 : α → Bool) : List α → List Bool
  | [] => []
  | r :: rest =>
    if p2 r then true :: specRangeOut p1 p2 rest else true :: specRangeIn p1 p2 rest

end

/-- A trivial float model: no claim depends on float internals. -/
def fmU : FloatModel Unit := ⟨(), fun _ => 0, fun _ _ => ""⟩

/-- A regex engine on which every pattern fails to compile (e.g. the host
engine restricted to inputs like "(" that are not valid regexps). -/
def rxNone : RegexEngine Unit := ⟨fun _ => none, fun _ _ => none⟩

/-- An action whose body calls `s.Exit()` and then returns normally. -/
def exitAction : ActionFunc ρ ξ := fun s => (Exit s, Outcome.normal)

/-- An End handler that records its execution in the caller-visible
`State` slot. -/
def endMarker : ActionFunc ρ ξ := fun s => ({ s with userState := 1 }, Outcome.normal)

/-- An action whose body calls `s.SetRS(rs)`: on the abort path this
mirrors `abortScript` (stop signal set, `scriptAborter` panic). -/
def setRSAction (rs : String) : ActionFunc ρ ξ := fun s =>
  match SetRS rs s with
  | Except.ok s' => (s', Outcome.normal)
  | Except.error msg => ({ s with stop := StopState.stopScript }, Outcome.abort msg)

/-- A sample script with a previous successful match recorded in
`RStart`/`RLength`. -/
def c2Script : Script Unit Unit :=
  { (NewScript : Script Unit Unit) with RStart := 5, RLength := 3 }

/-- A concrete two-record run whose only rule calls `Exit` on the first
record, with an End handler that would record its execution. -/
def c1Run : RunResult × Script Unit Unit :=
  Run fmU (fun _ => []) [⟨matchAny, exitAction⟩] none (some endMarker)
    ["a", "b"] 5 NewScript

/-- A sample one-field record state (record "x"), invariant I1 holding. -/
def c5Script : Script Unit Unit :=
  { (NewScript : Script Unit Unit) with
      fields := [newValueStr fmU "x", newValueStr fmU "x"], NF := 1, nf0 := 1 }

/-- A three-entry field state: record "a b" with fields "a", "b"
(`NF = nf0 = 2`). -/
def c6Script : Script Unit Unit :=
  { (NewScript : Script Unit Unit) with
      fields := [newValueStr fmU "a b", newValueStr fmU "a", newValueStr fmU "b"],
      NF := 2, nf0 := 2 }

/-- A state transformer follows the NR discipline when any change it makes
to `NR` is exactly the number of records it consumes from the primary
stream (as `GetLine(nil)` does), and it never pushes records back.  This
is the claim's implicit premise that actions touch `NR` only through
reads of the primary stream. -/
def NRConserving (f : Script ρ ξ → Script ρ ξ) : Prop :=
  ∀ s, (f s).NR + ((f s).remaining.length : Int) = s.NR + (s.remaining.length : Int) ∧
       (f s).remaining.length ≤ s.remaining.length

/-- A rule whose pattern and action both follow the NR discipline. -/
def NRConservingStmt (st : Statement ρ ξ) : Prop :=
  NRConserving (fun s => (st.Pattern s).1) ∧ NRConserving (fun s => (st.Action s).1)

/-! ## Theorems -/

/-- The latch automaton of `Range` agrees with the two-mode interval
description, from either starting mode. -/
theorem rangeList_eq_spec (p1 p2 : α → Bool) :
    ∀ (l : List α) (b : Bool),
      rangeList p1 p2 b l = if b then specRangeIn p1 p2 l else specRangeOut p1 p2 l := by
  intro l
  induction l with
  | nil => intro b; cases b <;> simp [rangeList, specRangeIn, specRangeOut]
  | cons r rest ih =>
    intro b
    cases b with
    | false =>
      simp only [rangeList, RangeStep, if_neg Bool.false_ne_true, specRangeOut,
        Bool.false_eq_true, if_false]
      by_cases h : p1 r = true
      · simp [h, ih]
      · simp [Bool.not_eq_true] at h
        simp [h, ih]
    | true =>
      simp only [rangeList, RangeStep, if_pos rfl, specRangeIn, if_true]
      by_cases h : p2 r = true
      · simp [h, ih]
      · simp [Bool.not_eq_true] at h
        simp [h, ih]

/-- C8: for every pair of patterns `p1, p2` and every record sequence, the
pattern built by `range(p1, p2)` (evaluated once per record, latch
initially off) is true on precisely the records in each maximal interval
that starts at a record satisfying `p1` while the latch was off and ends
at the next record satisfying `p2`, inclusive, and false on all other
records - the interval membership being computed by
`specRangeOut`/`specRangeIn`, transcribed from the claim. -/
theorem claim_C8_range_latch (p1 p2 : α → Bool) (recs : List α) :
    rangeList p1 p2 false recs = specRangeOut p1 p2 recs := by
  simpa using rangeList_eq_spec p1 p2 recs false

/-- C10: the stop signal moves only from `dontStop` to `stopRec` (`Next`)
or to `stopScript` (`Exit`); once set, any later `Next`/`Exit` leaves the
whole script state unchanged; and inside the record loop the signal is
reset to `dontStop` exactly by the per-record step (`stepState`), the
field split leaving it alone. -/
theorem claim_C10_stop_signal_monotone (ρ ξ : Type) :
    (∀ s : Script ρ ξ, s.stop = StopState.dontStop →
       (Next s).stop = StopState.stopRec ∧ (Exit s).stop = StopState.stopScript) ∧
    (∀ s : Script ρ ξ, s.stop ≠ StopState.dontStop → Next s = s ∧ Exit s = s) ∧
    (∀ (s : Script ρ ξ) (ops : List (Script ρ ξ → Script ρ ξ)),
       (∀ f ∈ ops, f = Next ∨ f = Exit) → s.stop ≠ StopState.dontStop →
       ops.foldl (fun t f => f t) s = s) ∧
    (∀ (s : Script ρ ξ) (rest : List String),
       (stepState s rest).stop = StopState.dontStop) ∧
    (∀ (fm : FloatModel ρ) (fsp : String → List String) (r : String) (s : Script ρ ξ),
       (splitRecord fm fsp r s).stop = s.stop) := by
  refine ⟨?_, ?_, ?_, ?_, ?_⟩
  · intro s h; simp [Next, Exit, h]
  · intro s h; simp [Next, Exit, h]
  · intro s ops
    induction ops generalizing s with
    | nil => intro _ _; rfl
    | cons f fs ih =>
      intro hmem h
      have hf : f = Next ∨ f = Exit := hmem f (List.mem_cons_self f fs)
      have hfs : f s = s := by
        rcases hf with hf | hf <;> subst hf <;> simp [Next, Exit, h]
      simp only [List.foldl_cons, hfs]
      exact ih s (fun g hg => hmem g (List.mem_cons_of_mem f hg)) h
  · intro s rest; rfl
  · intro fm fsp r s; rfl

/-- C10 witness at concrete inputs. -/
theorem claim_C10_stop_signal_monotone_witness :
    (Next (NewScript : Script Unit Unit)).stop = StopState.stopRec ∧
    Exit { (NewScript : Script Unit Unit) with stop := StopState.stopRec }
      = { (NewScript : Script Unit Unit) with stop := StopState.stopRec } := by
  refine ⟨((claim_C10_stop_signal_monotone Unit Unit).1 NewScript rfl).1, ?_⟩
  exact (((claim_C10_stop_signal_monotone Unit Unit).2.1
    { NewScript with stop := StopState.stopRec } (by decide)).2)

/-- C7: `SetRS` fails exactly when the script state is `inMiddle`, it
succeeds and installs the separator in every other state (in particular
`notRunning` and `atBegin`), and a `SetRS` failure raised from within a
running action unwinds the script and surfaces as the error returned by
`Run`. -/
theorem claim_C7_setRS (ρ ξ : Type) :
    (∀ (s : Script ρ ξ) (rs : String),
       (SetRS rs s = Except.error "SetRS was called from a running script" ↔
          s.state = ParseState.inMiddle) ∧
       (s.state ≠ ParseState.inMiddle → SetRS rs s = Except.ok { s with rs := rs })) ∧
    (∀ (fm : FloatModel ρ) (fieldSplit : String → List String) (rs : String)
       (endA : Option (ActionFunc ρ ξ)) (r : String) (recs : List String)
       (fuel : Nat) (s : Script ρ ξ),
       (Run fm fieldSplit [⟨matchAny, setRSAction rs⟩] none endA (r :: recs)
          (fuel + 1) s).1 = RunResult.err "SetRS was called from a running script") := by
  constructor
  · intro s rs
    constructor
    · constructor
      · intro h
        by_contra hmid
        simp [SetRS, hmid] at h
      · intro h; simp [SetRS, h]
    · intro h; simp [SetRS, h]
  · intro fm fieldSplit rs endA r recs fuel s
    simp [Run, runLoop, runRules, matchAny, setRSAction, SetRS, splitRecord, stepState]

/-- C7 witness at concrete inputs. -/
theorem claim_C7_setRS_witness :
    SetRS "\n" ({ NewScript with state := ParseState.atBegin } : Script Unit Unit)
      = Except.ok { { NewScript with state := ParseState.atBegin } with rs := "\n" } ∧
    (Run fmU (fun _ => []) [⟨matchAny, setRSAction "|"⟩] none none ["x"] 1
      (NewScript : Script Unit Unit)).1
      = RunResult.err "SetRS was called from a running script" := by
  constructor
  · exact ((claim_C7_setRS Unit Unit).1
      { NewScript with state := ParseState.atBegin } "\n").2 (by decide)
  · exact (claim_C7_setRS Unit Unit).2 fmU (fun _ => []) "|" none "x" [] 0 NewScript

/-- C2 counterexample: with `RStart = 5, RLength = 3` left by an earlier
match, `Match` on a pattern that fails to compile returns false but does
NOT reset `RStart` to 0 and `RLength` to -1 as the claim states - both
keep their previous values. -/
theorem claim_C2_counterexample :
    (Value.MatchV fmU rxNone (newValueStr fmU "x") "(" c2Script).1 = false ∧
    (Value.MatchV fmU rxNone (newValueStr fmU "x") "(" c2Script).2.RStart = 5 ∧
    (Value.MatchV fmU rxNone (newValueStr fmU "x") "(" c2Script).2.RLength = 3 ∧
    (5 : Int) ≠ 0 ∧ (3 : Int) ≠ -1 := by
  refine ⟨rfl, rfl, rfl, by decide, by decide⟩

/-- C2 (amended): for every Value and every pattern whose effective form
(after the optional case-insensitive prefix) is not in the regexp cache
and fails to compile, `Match` returns false and propagates no error, and
the script - in particular `RStart` and `RLength` - is left completely
unchanged (not reset). -/
theorem claim_C2_match_error_silent (fm : FloatModel ρ) (rx : RegexEngine ξ)
    (v : Value ρ) (expr : String) (s : Script ρ ξ)
    (hkey : alistFind (if s.ignCase then "(?i)" ++ expr else expr) s.regexps = none)
    (hcomp : rx.compile (if s.ignCase then "(?i)" ++ expr else expr) = none) :
    Value.MatchV fm rx v expr s = (false, s) := by
  simp [Value.MatchV, compileRegexp, hkey, hcomp]

/-- C2 witness at concrete inputs. -/
theorem claim_C2_match_error_silent_witness :
    Value.MatchV fmU rxNone (newValueStr fmU "Mississippi") "(" c2Script
      = (false, c2Script) := by
  exact claim_C2_match_error_silent fmU rxNone (newValueStr fmU "Mississippi")
    "(" c2Script rfl rfl

/-- No terminator occurring in the buffered data means the scan finds no
index. -/
theorem scanForTerm_none_of_not_mem (rs : Char) (data : List Char)
    (h : ∀ c ∈ data, c ≠ rs) : scanForTerm rs data = none := by
  induction data with
  | nil => rfl
  | cons a l ih =>
    have ha : a ≠ rs := h a (List.mem_cons_self a l)
    rw [scanForTerm, if_neg ha, ih (fun c hc => h c (List.mem_cons_of_mem a hc))]
    rfl

/-- C3 counterexample: in single-code-point RS mode (here RS = "\n"), the
final unterminated record "a" is yielded, but `RT` is set to the
terminator string "\n", not to the empty string the claim requires. -/
theorem claim_C3_counterexample :
    singleCharRecordSplit '\n' ['a'] true = ((1, some ['a']), "\n") ∧
    ("\n" : String) ≠ "" := by
  refine ⟨rfl, by decide⟩

/-- C3 (amended): at end of stream with a nonempty buffered remainder
containing no terminator, every record-splitter mode yields the remaining
bytes as a final non-empty record; the regex and paragraph modes set `RT`
to the empty string, but the single-code-point mode leaves `RT` equal to
the terminator string (it assigns `RT = RS` on every invocation). -/
theorem claim_C3_final_record (find : List Char → Option (Nat × Nat))
    (rs : Char) (data : List Char) (hne : data ≠ [])
    (hfind : find data = none) (hmem : ∀ c ∈ data, c ≠ rs) :
    regexRecordSplit find data true = ((data.length, some data), some "") ∧
    singleCharRecordSplit rs data true = ((data.length, some data), String.mk [rs]) := by
  constructor
  · simp [regexRecordSplit, hfind, hne]
  · simp [singleCharRecordSplit, scanForTerm_none_of_not_mem rs data hmem, hne]

/-- C3 witness at concrete inputs. -/
theorem claim_C3_final_record_witness :
    regexRecordSplit (fun _ => none) ['a', 'b'] true = ((2, some ['a', 'b']), some "") ∧
    singleCharRecordSplit '\n' ['a', 'b'] true = ((2, some ['a', 'b']), "\n") := by
  have h := claim_C3_final_record (fun _ => none) '\n' ['a', 'b']
    (by decide) rfl (by decide)
  exact ⟨h.1, h.2⟩

/-- C1 counterexample: an action calls `exit()` on the first record; `Run`
returns normally with the second record unread, but the End handler never
runs (the `State` marker it would set is still 0) and the script never
transitions to `atEnd` - it is left `inMiddle`.  The claim predicts the
marker 1 and an `atEnd` transition. -/
theorem claim_C1_counterexample :
    c1Run.1 = RunResult.ok ∧ c1Run.2.remaining = ["b"] ∧
    c1Run.2.userState = 0 ∧ c1Run.2.state = ParseState.inMiddle ∧
    (0 : Int) ≠ 1 ∧ ParseState.inMiddle ≠ ParseState.atEnd := by
  refine ⟨rfl, by decide, rfl, rfl, by decide, by decide⟩

/-- C1 (amended): if an action sets the `stopScript` signal while a record
is being processed (and no action aborted), the run loop stops reading
records and `Run` returns nil immediately with the state exactly as the
record processing left it: the End handler is NOT applied and no `atEnd`
transition happens. -/
theorem claim_C1_exit_skips_end (fm : FloatModel ρ) (fieldSplit : String → List String)
    (rules : List (Statement ρ ξ)) (endA : Option (ActionFunc ρ ξ)) (k : Nat)
    (s : Script ρ ξ) (r : String) (rest : List String)
    (hrem : s.remaining = r :: rest)
    (hab : (runRules rules (splitRecord fm fieldSplit r (stepState s rest))).2 = none)
    (hstop : (runRules rules (splitRecord fm fieldSplit r (stepState s rest))).1.stop
      = StopState.stopScript) :
    runLoop fm fieldSplit rules endA (k + 1) s
      = (RunResult.ok, (runRules rules (splitRecord fm fieldSplit r (stepState s rest))).1) := by
  rw [show k + 1 = Nat.succ k from rfl, runLoop.eq_def]
  simp only [hrem, hab, hstop, if_true, eq_self_iff_true]

/-- C1 witness at concrete inputs (one rule whose action exits, End
handler present and skipped). -/
theorem claim_C1_exit_skips_end_witness :
    runLoop fmU (fun _ => []) [⟨matchAny, exitAction⟩] (some endMarker) 3
      { (NewScript : Script Unit Unit) with
          remaining := ["a", "b"], state := ParseState.inMiddle }
      = (RunResult.ok,
         (runRules [⟨matchAny, exitAction⟩]
           (splitRecord fmU (fun _ => []) "a"
             (stepState { (NewScript : Script Unit Unit) with
                 remaining := ["a", "b"], state := ParseState.inMiddle } ["b"]))).1) := by
  exact claim_C1_exit_skips_end fmU (fun _ => []) [⟨matchAny, exitAction⟩]
    (some endMarker) 2
    { NewScript with remaining := ["a", "b"], state := ParseState.inMiddle }
    "a" ["b"] rfl (by decide) (by decide)

/-- The string projection of a string-primary Value is that string. -/
theorem strProj_newValueStr (fm : FloatModel ρ) (cf str : String) :
    (newValueStr fm str).strProj fm cf = str := rfl

/-- Reading field 0 while it is stale rebuilds it as the `OFS`-join of the
strings of fields `1..NF`. -/
theorem F0_after_stale (fm : FloatModel ρ) (t : Script ρ ξ)
    (hne : t.NF ≠ t.nf0) (hlen : 1 ≤ t.fields.length) :
    (F fm t 0).1 = newValueStr fm (String.intercalate t.ofs (FStrings fm t)) := by
  have hcond : ((0 : Nat) = 0 ∧ t.NF ≠ t.nf0) := ⟨rfl, hne⟩
  unfold F
  rw [if_pos hcond]
  show Fget fm (recomputeF0 fm t) 0 = _
  unfold recomputeF0
  rw [if_pos hlen]
  have h0 : 0 < (t.fields.set 0
      (newValueStr fm (String.intercalate t.ofs (FStrings fm t)))).length := by
    simpa [List.length_set] using hlen
  unfold Fget
  rw [dif_pos h0]
  exact List.get_set_eq h0

/-- Structural facts about `SetF` at a positive index. -/
theorem SetF_facts (fm : FloatModel ρ) (i : Nat) (v : Value ρ) (s : Script ρ ξ) :
    (SetF fm i v s).nf0 = -1 ∧
    (SetF fm i v s).ConvFmt = s.ConvFmt ∧
    (SetF fm i v s).ofs = s.ofs ∧
    (SetF fm i v s).fields.length = max s.fields.length (i + 1) ∧
    (SetF fm i v s).NF = (if s.fields.length ≤ i then (i : Int) else s.NF) := by
  unfold SetF
  by_cases h : s.fields.length ≤ i
  · rw [if_pos h, if_pos h]
    refine ⟨rfl, rfl, rfl, ?_, ?_⟩
    · simp only [List.length_set, List.length_append, List.length_replicate]
      omega
    · show (((s.fields ++ List.replicate (i + 1 - s.fields.length)
        (newValueStr fm "")).length : Int) - 1) = (i : Int)
      simp only [List.length_append, List.length_replicate]
      push_cast
      omega
  · rw [if_neg h, if_neg h]
    refine ⟨rfl, rfl, rfl, ?_, rfl⟩
    simp only [List.length_set]
    omega

/-- C5: for every current record (invariant I1 holds and `NF ≥ 0`) and
every `i ≥ 1`, after `setField(i, v)` the next read of field 0 returns a
string equal to the strings of fields `1..NF` joined by the current `OFS`
(which is exactly `FStrings`). -/
theorem claim_C5_field_reconstruction (fm : FloatModel ρ) (i : Nat) (v : Value ρ)
    (s : Script ρ ξ) (hi : 1 ≤ i)
    (hwf : (s.fields.length : Int) = s.NF + 1) (hNF : 0 ≤ s.NF) :
    ((F fm (SetF fm i v s) 0).1).strProj fm (SetF fm i v s).ConvFmt
      = String.intercalate (SetF fm i v s).ofs (FStrings fm (SetF fm i v s)) := by
  obtain ⟨hnf0, _, _, hlen, hNF'⟩ := SetF_facts fm i v s
  have hne : (SetF fm i v s).NF ≠ (SetF fm i v s).nf0 := by
    rw [hnf0, hNF']
    by_cases h : s.fields.length ≤ i <;> simp [h] <;> omega
  have hlen1 : 1 ≤ (SetF fm i v s).fields.length := by
    rw [hlen]; omega
  rw [F0_after_stale fm _ hne hlen1, strProj_newValueStr]

/-- C5 witness at concrete inputs: a one-field record, `setField(2, "y")`,
field 0 rebuilt as "x y". -/
theorem claim_C5_field_reconstruction_witness :
    ((F fmU (SetF fmU 2 (newValueStr fmU "y") c5Script) 0).1).strProj fmU
        (SetF fmU 2 (newValueStr fmU "y") c5Script).ConvFmt
      = String.intercalate (SetF fmU 2 (newValueStr fmU "y") c5Script).ofs
          (FStrings fmU (SetF fmU 2 (newValueStr fmU "y") c5Script)) := by
  exact claim_C5_field_reconstruction fmU 2 (newValueStr fmU "y") c5Script
    (by decide) (by decide) (by decide)

/-- When the field slice is long enough, `FStrings` is the string
projection of the stored fields `1..NF`. -/
theorem FStrings_eq_take (fm : FloatModel ρ) (t : Script ρ ξ)
    (h : t.NF.toNat + 1 ≤ t.fields.length) :
    FStrings fm t
      = ((t.fields.drop 1).take t.NF.toNat).map (fun w => w.strProj fm t.ConvFmt) := by
  apply List.ext_getElem
  · simp [FStrings]
    omega
  · intro j h1 h2
    simp only [FStrings, List.getElem_map, List.getElem_range, List.getElem_take,
      List.getElem_drop]
    have hj : j < t.NF.toNat := by simpa [FStrings] using h1
    have hlt : j + 1 < t.fields.length := by omega
    simp [Fget, hlt, Nat.add_comm]

/-- Reading a nonzero field within the slice returns the stored Value and
performs no recomputation. -/
theorem F_pos (fm : FloatModel ρ) (t : Script ρ ξ) (i : Nat) (hi : i ≠ 0)
    (hlt : i < t.fields.length) : (F fm t i).1 = t.fields.get ⟨i, hlt⟩ := by
  unfold F
  rw [if_neg (fun hc => hi hc.1)]
  show Fget fm t i = _
  unfold Fget
  rw [dif_pos hlt]

/-- C6 counterexample: after assigning `NF := 1` (down from 2), reading
field 2 still returns the previously stored field "b", not the
empty-string Value the claim requires - the field slice is not
truncated. -/
theorem claim_C6_counterexample :
    (F fmU { c6Script with NF := 1 } 2).1 = newValueStr fmU "b" ∧
    newValueStr fmU "b" ≠ newValueStr fmU "" := by
  refine ⟨rfl, by decide⟩

/-- C6 (amended): for a current record with `NF = nf0 = n` and `n + 1`
stored fields, after assigning `NF` a smaller value `m < n`, field 0 is
reconstructed from fields `1..m` joined by `OFS`, but field `i` for every
`m < i ≤ n` still returns the previously stored field (the field slice is
not truncated; only indices beyond the slice yield empty-string
Values). -/
theorem claim_C6_NF_shrink (fm : FloatModel ρ) (s : Script ρ ξ) (n m : Nat)
    (_hNF : s.NF = (n : Int)) (hnf0 : s.nf0 = (n : Int))
    (hlen : s.fields.length = n + 1) (hm : m < n) :
    (F fm { s with NF := (m : Int) } 0).1
      = newValueStr fm (String.intercalate s.ofs
          (((s.fields.drop 1).take m).map (fun w => w.strProj fm s.ConvFmt))) ∧
    ∀ i : Nat, m < i → i ≤ n →
      (F fm { s with NF := (m : Int) } i).1
        = s.fields.getD i (newValueStr fm "") := by
  constructor
  · have hne : ({ s with NF := (m : Int) } : Script ρ ξ).NF
        ≠ ({ s with NF := (m : Int) } : Script ρ ξ).nf0 := by
      simp only [hnf0]
      intro hc
      have : m = n := by exact_mod_cast hc
      omega
    have hlen1 : 1 ≤ ({ s with NF := (m : Int) } : Script ρ ξ).fields.length := by
      simp [hlen]
    rw [F0_after_stale fm _ hne hlen1]
    rw [FStrings_eq_take fm _ (by simp [hlen]; omega)]
    rfl
  · intro i him hin
    have hlt : i < s.fields.length := by omega
    rw [F_pos fm { s with NF := (m : Int) } i (by omega) hlt]
    rw [List.getD_eq_getElem s.fields _ hlt]
    simp

/-- C6 witness at concrete inputs (shrink `NF` from 2 to 1 on
`c6Script`). -/
theorem claim_C6_NF_shrink_witness :
    (F fmU { c6Script with NF := (1 : Nat) } 0).1
      = newValueStr fmU (String.intercalate c6Script.ofs
          (((c6Script.fields.drop 1).take 1).map (fun w => w.strProj fmU c6Script.ConvFmt))) ∧
    (F fmU { c6Script with NF := (1 : Nat) } 2).1 = c6Script.fields.get ⟨2, by decide⟩ := by
  have h := claim_C6_NF_shrink fmU c6Script 2 1 (by decide) (by decide) (by decide) (by decide)
  exact ⟨h.1, h.2 2 (by decide) (by decide)⟩

/-- Unfolding `runRules` on a matching rule whose action returns
normally. -/
theorem runRules_cons_normal (st : Statement ρ ξ) (rest : List (Statement ρ ξ))
    (s s2 : Script ρ ξ) (hm : (st.Pattern s).2 = true)
    (ha : st.Action (st.Pattern s).1 = (s2, Outcome.normal)) :
    runRules (st :: rest) s
      = if s2.stop = StopState.dontStop then runRules rest s2 else (s2, none) := by
  rw [runRules, if_pos hm, ha]

/-- Unfolding `runRules` on a matching rule whose action unwinds via
`Next`. -/
theorem runRules_cons_next (st : Statement ρ ξ) (rest : List (Statement ρ ξ))
    (s s2 : Script ρ ξ) (hm : (st.Pattern s).2 = true)
    (ha : st.Action (st.Pattern s).1 = (s2, Outcome.nextUnwind)) :
    runRules (st :: rest) s = (s2, none) := by
  rw [runRules, if_pos hm, ha]

/-- Unfolding `runRules` on a matching rule whose action aborts the
script. -/
theorem runRules_cons_abort (st : Statement ρ ξ) (rest : List (Statement ρ ξ))
    (s s2 : Script ρ ξ) (msg : String) (hm : (st.Pattern s).2 = true)
    (ha : st.Action (st.Pattern s).1 = (s2, Outcome.abort msg)) :
    runRules (st :: rest) s = (s2, some msg) := by
  rw [runRules, if_pos hm, ha]

/-- Unfolding `runRules` on a non-matching rule. -/
theorem runRules_cons_skip (st : Statement ρ ξ) (rest : List (Statement ρ ξ))
    (s : Script ρ ξ) (hm : ¬(st.Pattern s).2 = true) :
    runRules (st :: rest) s = runRules rest (st.Pattern s).1 := by
  rw [runRules, if_neg hm]

/-- Rule dispatch preserves the NR accounting when every rule does. -/
theorem runRules_conserving (rules : List (Statement ρ ξ))
    (hr : ∀ st ∈ rules, NRConservingStmt st) :
    ∀ s, (runRules rules s).1.NR + ((runRules rules s).1.remaining.length : Int)
        = s.NR + (s.remaining.length : Int) ∧
      (runRules rules s).1.remaining.length ≤ s.remaining.length := by
  induction rules with
  | nil => intro s; exact ⟨rfl, Nat.le_refl _⟩
  | cons st rest ih =>
    intro s
    have hst := hr st (List.mem_cons_self st rest)
    have hrest : ∀ st' ∈ rest, NRConservingStmt st' :=
      fun st' h' => hr st' (List.mem_cons_of_mem st h')
    have hpat : (st.Pattern s).1.NR + ((st.Pattern s).1.remaining.length : Int)
          = s.NR + (s.remaining.length : Int) ∧
        (st.Pattern s).1.remaining.length ≤ s.remaining.length := hst.1 s
    have hact : (st.Action (st.Pattern s).1).1.NR
          + ((st.Action (st.Pattern s).1).1.remaining.length : Int)
          = (st.Pattern s).1.NR + ((st.Pattern s).1.remaining.length : Int) ∧
        (st.Action (st.Pattern s).1).1.remaining.length
          ≤ (st.Pattern s).1.remaining.length := hst.2 (st.Pattern s).1
    by_cases hm : (st.Pattern s).2 = true
    · rcases hact' : st.Action (st.Pattern s).1 with ⟨s2, oc⟩
      rw [hact'] at hact
      simp only at hact
      have hact2 : s2.NR + (s2.remaining.length : Int)
            = s.NR + (s.remaining.length : Int) ∧
          s2.remaining.length ≤ s.remaining.length :=
        ⟨hact.1.trans hpat.1, hact.2.trans hpat.2⟩
      cases oc with
      | normal =>
        rw [runRules_cons_normal st rest s s2 hm hact']
        by_cases hstop : s2.stop = StopState.dontStop
        · rw [if_pos hstop]
          have h3 := ih hrest s2
          exact ⟨h3.1.trans hact2.1, h3.2.trans hact2.2⟩
        · rw [if_neg hstop]
          exact hact2
      | nextUnwind =>
        rw [runRules_cons_next st rest s s2 hm hact']
        exact hact2
      | abort msg =>
        rw [runRules_cons_abort st rest s s2 msg hm hact']
        exact hact2
    · rw [runRules_cons_skip st rest s hm]
      have h3 := ih hrest (st.Pattern s).1
      exact ⟨h3.1.trans hpat.1, h3.2.trans hpat.2⟩

/-- The EOF epilogue preserves the NR accounting when the End handler
does. -/
theorem runEOF_conserving (endA : Option (ActionFunc ρ ξ))
    (hend : ∀ ea ∈ endA, NRConserving (fun s => (ea s).1))
    (s : Script ρ ξ) (hrem : s.remaining = []) :
    (runEOF endA s).1 ≠ RunResult.fuelOut ∧
    (runEOF endA s).2.NR + ((runEOF endA s).2.remaining.length : Int)
      = s.NR + (([] : List String).length : Int) := by
  unfold runEOF
  rcases endA with _ | ea
  · simp [hrem]
  · have hcons : ((fun t => (ea t).1) { s with state := ParseState.atEnd }).NR
          + (((fun t => (ea t).1) { s with state := ParseState.atEnd }).remaining.length : Int)
          = ({ s with state := ParseState.atEnd } : Script ρ ξ).NR
            + (({ s with state := ParseState.atEnd } : Script ρ ξ).remaining.length : Int) ∧
        ((fun t => (ea t).1) { s with state := ParseState.atEnd }).remaining.length
          ≤ ({ s with state := ParseState.atEnd } : Script ρ ξ).remaining.length :=
      hend ea rfl { s with state := ParseState.atEnd }
    rcases hea : ea { s with state := ParseState.atEnd } with ⟨s2, oc⟩
    simp only [hea] at hcons
    have hrem' : ({ s with state := ParseState.atEnd } : Script ρ ξ).remaining = [] := hrem
    rw [hrem'] at hcons
    simp only [List.length_nil, Nat.cast_zero, add_zero] at hcons
    have hlen0 : s2.remaining.length = 0 := Nat.le_zero.mp hcons.2
    cases oc <;> simp_all

/-- C9: `NR` increases by exactly 1 per record successfully read from the
primary stream.  Part 1: `getLine` with no stream argument consumes one
primary record and adds exactly 1 to `NR`.  Part 2: `getLine` on an
auxiliary stream never changes `NR`.  Part 3: over the whole record loop,
provided every rule and the End handler touch `NR` only through primary
reads (`NRConserving`), the final `NR` equals the initial `NR` plus the
number of primary records consumed (`NR + remaining.length` is invariant),
and the loop terminates within `remaining.length < fuel` iterations. -/
theorem claim_C9_NR_accounting (fm : FloatModel ρ) (auxInput : Nat → List String) :
    (∀ (s : Script ρ ξ) (rec : String) (rest : List String),
       s.remaining = rec :: rest →
       GetLine fm auxInput none s
         = (some (newValueStr fm rec), { s with remaining := rest, NR := s.NR + 1 })) ∧
    (∀ (s : Script ρ ξ) (id : Nat),
       (GetLine fm auxInput (some id) s).2.NR = s.NR) ∧
    (∀ (fieldSplit : String → List String) (rules : List (Statement ρ ξ))
       (endA : Option (ActionFunc ρ ξ)),
       (∀ st ∈ rules, NRConservingStmt st) →
       (∀ ea ∈ endA, NRConserving (fun s => (ea s).1)) →
       ∀ (fuel : Nat) (s : Script ρ ξ), s.remaining.length < fuel →
         (runLoop fm fieldSplit rules endA fuel s).1 ≠ RunResult.fuelOut ∧
         (runLoop fm fieldSplit rules endA fuel s).2.NR
             + ((runLoop fm fieldSplit rules endA fuel s).2.remaining.length : Int)
           = s.NR + (s.remaining.length : Int)) := by
  refine ⟨?_, ?_, ?_⟩
  · intro s rec rest h
    simp [GetLine, h]
  · intro s id
    rcases hp : (auxFind id s.getlineState).getD (auxInput id) with _ | ⟨rec, rest⟩ <;>
      simp [GetLine, hp]
  · intro fieldSplit rules endA hr hend fuel
    induction fuel with
    | zero => intro s h; omega
    | succ k ih =>
      intro s hfuel
      rcases hrem : s.remaining with _ | ⟨rec, rest⟩
      · have heq : runLoop fm fieldSplit rules endA (k + 1) s = runEOF endA s := by
          rw [show k + 1 = Nat.succ k from rfl, runLoop.eq_def]
          simp only [hrem]
        rw [heq]
        exact runEOF_conserving endA hend s hrem
      · have heq : runLoop fm fieldSplit rules endA (k + 1) s =
            (match (runRules rules (splitRecord fm fieldSplit rec (stepState s rest))).2 with
             | some msg =>
               (RunResult.err msg,
                (runRules rules (splitRecord fm fieldSplit rec (stepState s rest))).1)
             | none =>
               if (runRules rules (splitRecord fm fieldSplit rec (stepState s rest))).1.stop
                   = StopState.stopScript then
                 (RunResult.ok,
                  (runRules rules (splitRecord fm fieldSplit rec (stepState s rest))).1)
               else runLoop fm fieldSplit rules endA k
                 (runRules rules (splitRecord fm fieldSplit rec (stepState s rest))).1) := by
          rw [show k + 1 = Nat.succ k from rfl, runLoop.eq_def]
          simp only [hrem]
        rw [heq]
        have hsum2 : (splitRecord fm fieldSplit rec (stepState s rest)).NR
              + (((splitRecord fm fieldSplit rec (stepState s rest)).remaining.length : Nat) : Int)
            = s.NR + (((rec :: rest).length : Nat) : Int) := by
          show s.NR + 1 + ((rest.length : Nat) : Int) = s.NR + (((rec :: rest).length : Nat) : Int)
          simp only [List.length_cons]
          push_cast
          omega
        have hrr := runRules_conserving rules hr
          (splitRecord fm fieldSplit rec (stepState s rest))
        rcases hab : (runRules rules (splitRecord fm fieldSplit rec (stepState s rest))).2
          with _ | msg
        · by_cases hstop :
            (runRules rules (splitRecord fm fieldSplit rec (stepState s rest))).1.stop
              = StopState.stopScript
          · rw [if_pos hstop]
            exact ⟨by simp, hrr.1.trans hsum2⟩
          · rw [if_neg hstop]
            have hlt : (runRules rules
                (splitRecord fm fieldSplit rec (stepState s rest))).1.remaining.length < k := by
              have h1 := hrr.2
              have h2 : (splitRecord fm fieldSplit rec (stepState s rest)).remaining.length
                  = rest.length := rfl
              have h3 : rest.length < k := by
                rw [hrem] at hfuel
                simpa using Nat.lt_of_succ_lt_succ hfuel
              omega
            have h4 := ih (runRules rules (splitRecord fm fieldSplit rec (stepState s rest))).1 hlt
            exact ⟨h4.1, h4.2.trans (hrr.1.trans hsum2)⟩
        · exact ⟨by simp, hrr.1.trans hsum2⟩

/-- C9 witness at concrete inputs. -/
theorem claim_C9_NR_accounting_witness :
    GetLine fmU (fun _ => []) none
        { (NewScript : Script Unit Unit) with remaining := ["r1"] }
      = (some (newValueStr fmU "r1"),
         { { (NewScript : Script Unit Unit) with remaining := ["r1"] } with
             remaining := [], NR := 1 }) ∧
    (GetLine fmU (fun _ => ["aux"]) (some 0) (NewScript : Script Unit Unit)).2.NR = 0 ∧
    (runLoop fmU (fun _ => []) [] none 3
        { (NewScript : Script Unit Unit) with remaining := ["a", "b"] }).2.NR
      + (((runLoop fmU (fun _ => []) [] none 3
        { (NewScript : Script Unit Unit) with remaining := ["a", "b"] }).2.remaining.length : Nat) : Int)
      = (0 : Int) + ((2 : Nat) : Int) := by
  refine ⟨?_, ?_, ?_⟩
  · exact (claim_C9_NR_accounting fmU (fun _ => [])).1
      { NewScript with remaining := ["r1"] } "r1" [] rfl
  · exact (claim_C9_NR_accounting fmU (fun _ => ["aux"])).2.1 NewScript 0
  · exact ((claim_C9_NR_accounting fmU (fun _ => [])).2.2 (fun _ => []) [] none
      (by simp) (by simp) 3
      { NewScript with remaining := ["a", "b"] } (by decide)).2

/-! ## Helper lemmas for claim C4 -/

/-- Every character kept by `takeWhile` satisfies the predicate. -/
theorem mem_takeWhile_pred (p : Char → Bool) :
    ∀ (l : List Char), ∀ c ∈ l.takeWhile p, p c = true := by
  intro l
  induction l with
  | nil => intro c hc; cases hc
  | cons a t ih =>
    intro c hc
    rw [List.takeWhile_cons] at hc
    by_cases hpa : p a = true
    · rw [if_pos hpa] at hc
      rcases List.mem_cons.mp hc with rfl | hc2
      · exact hpa
      · exact ih c hc2
    · rw [if_neg hpa] at hc
      cases hc

/-- Dropping a fully-satisfying block continues into the tail. -/
theorem dropWhile_append_of_all (p : Char → Bool) (W u : List Char)
    (hW : ∀ c ∈ W, p c = true) : (W ++ u).dropWhile p = u.dropWhile p := by
  induction W with
  | nil => rfl
  | cons a t ih =>
    have hpa : p a = true := hW a (List.mem_cons_self a t)
    rw [List.cons_append, List.dropWhile_cons, if_pos hpa]
    exact ih (fun c hc => hW c (List.mem_cons_of_mem a hc))

/-- The first character surviving `dropWhile` fails the predicate. -/
theorem head_dropWhile_not (p : Char → Bool) :
    ∀ (l : List Char) (c : Char) (u : List Char),
      l.dropWhile p = c :: u → p c = false := by
  intro l
  induction l with
  | nil => intro c u h; cases h
  | cons a t ih =>
    intro c u h
    rw [List.dropWhile_cons] at h
    by_cases hpa : p a = true
    · rw [if_pos hpa] at h
      exact ih c u h
    · rw [if_neg hpa] at h
      injection h with h1 _
      subst h1
      exact Bool.eq_false_iff.mpr hpa

/-- An empty `takeWhile` on a nonempty list means its head fails the
predicate. -/
theorem takeWhile_eq_nil_head (p : Char → Bool) (a : Char) (l : List Char)
    (h : (a :: l).takeWhile p = []) : p a = false := by
  rw [List.takeWhile_cons] at h
  by_cases hpa : p a = true
  · rw [if_pos hpa] at h; cases h
  · exact Bool.eq_false_iff.mpr hpa

/-- A prefix of a concatenation is a prefix of the left part or extends
it by a prefix of the right part. -/
theorem prefix_append_cases {P A B : List Char} (h : P <+: A ++ B) :
    P <+: A ∨ ∃ B₀, B₀ <+: B ∧ P = A ++ B₀ := by
  induction A generalizing P with
  | nil => exact Or.inr ⟨P, by simpa using h, by simp⟩
  | cons a A' ih =>
    cases P with
    | nil => exact Or.inl List.nil_prefix
    | cons q P' =>
      rw [List.cons_append] at h
      obtain ⟨hqa, hP'⟩ := List.cons_prefix_cons.mp h
      subst hqa
      rcases ih hP' with h1 | ⟨B₀, hB₀, rfl⟩
      · exact Or.inl (List.cons_prefix_cons.mpr ⟨rfl, h1⟩)
      · exact Or.inr ⟨B₀, hB₀, by simp⟩

/-- If the parse fails on every prefix, the trailing-strip procedure
yields 0. -/
theorem stripAux_all_none (parse : List Char → Option Int) :
    ∀ (rev : List Char), (∀ P, P <+: rev.reverse → parse P = none) →
      stripAux parse rev = 0 := by
  intro rev
  induction rev with
  | nil =>
    intro h
    have h0 : parse [] = none := h [] List.nil_prefix
    simp [stripAux, h0]
  | cons c rev' ih =>
    intro h
    have h0 : parse ((c :: rev').reverse) = none := h _ (List.prefix_rfl)
    rw [stripAux, h0]
    refine ih (fun P hP => h P ?_)
    rw [List.reverse_cons]
    exact hP.trans (List.prefix_append _ _)

/-- If the parse fails on every prefix, the spec's procedure yields 0. -/
theorem strip_all_none (parse : List Char → Option Int) (cs : List Char)
    (h : ∀ P, P <+: cs → parse P = none) : stripUntilParses parse cs = 0 := by
  unfold stripUntilParses
  refine stripAux_all_none parse cs.reverse (fun P hP => h P ?_)
  rwa [List.reverse_reverse] at hP

/-- If the parse succeeds on the whole string, the spec's procedure
returns that value at once. -/
theorem strip_exact (parse : List Char → Option Int) (pre : List Char) (v : Int)
    (h : parse pre = some v) : stripUntilParses parse pre = v := by
  unfold stripUntilParses
  rcases hrev : pre.reverse with _ | ⟨c, l⟩
  · have hnil : pre = [] := by simpa using congrArg List.reverse hrev
    subst hnil
    simp [stripAux, h]
  · have hpre : (c :: l).reverse = pre := by
      rw [← hrev, List.reverse_reverse]
    rw [stripAux, hpre, h]

/-- Junk on which every nonempty extension fails to parse is stripped
away entirely. -/
theorem stripAux_skip (parse : List Char → Option Int) :
    ∀ (rev : List Char) (pre : List Char),
      (∀ R₀, R₀ ≠ [] → R₀ <+: rev.reverse → parse (pre ++ R₀) = none) →
      stripAux parse (rev ++ pre.reverse) = stripAux parse pre.reverse := by
  intro rev
  induction rev with
  | nil => intro pre _; rfl
  | cons c rev' ih =>
    intro pre h
    have harg : (c :: (rev' ++ pre.reverse)).reverse
        = pre ++ (rev'.reverse ++ [c]) := by
      simp
    have hnone : parse ((c :: (rev' ++ pre.reverse)).reverse) = none := by
      rw [harg]
      refine h (rev'.reverse ++ [c]) (by simp) ?_
      rw [List.reverse_cons]
    rw [List.cons_append, stripAux, hnone]
    refine ih pre (fun R₀ h1 h2 => h R₀ h1 ?_)
    rw [List.reverse_cons]
    exact h2.trans (List.prefix_append _ _)

/-- Appending unparseable junk does not change the spec's procedure. -/
theorem strip_append_junk (parse : List Char → Option Int) (pre R : List Char)
    (h : ∀ R₀, R₀ ≠ [] → R₀ <+: R → parse (pre ++ R₀) = none) :
    stripUntilParses parse (pre ++ R) = stripUntilParses parse pre := by
  unfold stripUntilParses
  rw [List.reverse_append]
  refine stripAux_skip parse R.reverse pre (fun R₀ h1 h2 => h R₀ h1 ?_)
  rwa [List.reverse_reverse] at h2

/-- Success on `W ++ M` together with failure on every proper extension
into `R` pins the spec's procedure on `(W ++ M) ++ R`. -/
theorem strip_main (parse : List Char → Option Int) (W M R : List Char) (v : Int)
    (hM : parse (W ++ M) = some v)
    (hJ : ∀ R₀, R₀ ≠ [] → R₀ <+: R → parse ((W ++ M) ++ R₀) = none) :
    stripUntilParses parse ((W ++ M) ++ R) = v :=
  (strip_append_junk parse (W ++ M) R hJ).trans (strip_exact parse (W ++ M) v hM)

/-- Digits are not whitespace. -/
theorem isGoSpace_of_digit (c : Char) (h : c.isDigit = true) : isGoSpace c = false := by
  by_contra hsp
  have hsp2 : isGoSpace c = true := Bool.not_eq_false _ |>.mp hsp
  unfold isGoSpace at hsp2
  simp only [Bool.or_eq_true, beq_iff_eq] at hsp2
  rcases hsp2 with (((rfl | rfl) | rfl) | rfl) | rfl <;> cases h

/-- Digits are not sign characters. -/
theorem digit_ne_sign (c : Char) (h : c.isDigit = true) : c ≠ '+' ∧ c ≠ '-' := by
  constructor
  · intro hc; subst hc; cases h
  · intro hc; subst hc; cases h

/-- Leading whitespace is transparent to the whitespace-tolerant signed
decimal parse. -/
theorem parseWS_append_ws (W t : List Char) (hW : ∀ c ∈ W, isGoSpace c = true) :
    parsesSignedDecWS (W ++ t) = parsesSignedDecWS t := by
  unfold parsesSignedDecWS
  rw [dropWhile_append_of_all isGoSpace W t hW]

/-- An all-whitespace string does not parse. -/
theorem parseWS_all_space (P : List Char) (hP : ∀ c ∈ P, isGoSpace c = true) :
    parsesSignedDecWS P = none := by
  have h := parseWS_append_ws P [] hP
  rw [List.append_nil] at h
  rw [h]
  decide

/-- Evaluation of the parse on a plus-signed body. -/
theorem parseWS_plus (u : List Char) :
    parsesSignedDecWS ('+' :: u)
      = if u ≠ [] ∧ u.all Char.isDigit then some (clampInt64 (digitsToNat u))
        else none := by
  unfold parsesSignedDecWS
  rw [List.dropWhile_cons, if_neg (by decide)]
  rfl

/-- Evaluation of the parse on a minus-signed body. -/
theorem parseWS_minus (u : List Char) :
    parsesSignedDecWS ('-' :: u)
      = if u ≠ [] ∧ u.all Char.isDigit then some (clampInt64 (-(digitsToNat u : Int)))
        else none := by
  unfold parsesSignedDecWS
  rw [List.dropWhile_cons, if_neg (by decide)]
  rfl

/-- Evaluation of the parse on a body that starts with neither whitespace
nor a sign. -/
theorem parseWS_other (a : Char) (u : List Char) (hsp : isGoSpace a = false)
    (hna : a ≠ '+') (hnb : a ≠ '-') :
    parsesSignedDecWS (a :: u)
      = if a :: u ≠ [] ∧ (a :: u).all Char.isDigit
        then some (clampInt64 (digitsToNat (a :: u)))
        else none := by
  unfold parsesSignedDecWS
  rw [List.dropWhile_cons, if_neg (by simp [hsp])]
  split
  · rename_i u' heq
    injection heq with h1 _
    exact absurd h1 hna
  · rename_i u' heq
    injection heq with h1 _
    exact absurd h1 hnb
  · rfl

/-- Evaluation of `intCapture` when the input is all whitespace. -/
theorem intCapture_eval_nil (cs : List Char) (hT : cs.dropWhile isGoSpace = []) :
    intCapture cs = none := by
  unfold intCapture
  rw [hT]
  rfl

/-- Evaluation of `intCapture` on a plus-signed body. -/
theorem intCapture_eval_plus (cs : List Char) (u : List Char)
    (hT : cs.dropWhile isGoSpace = '+' :: u) :
    intCapture cs
      = (if u.takeWhile Char.isDigit = [] then none
         else some (false, u.takeWhile Char.isDigit)) := by
  unfold intCapture
  rw [hT]
  rfl

/-- Evaluation of `intCapture` on a minus-signed body. -/
theorem intCapture_eval_minus (cs : List Char) (u : List Char)
    (hT : cs.dropWhile isGoSpace = '-' :: u) :
    intCapture cs
      = (if u.takeWhile Char.isDigit = [] then none
         else some (true, u.takeWhile Char.isDigit)) := by
  unfold intCapture
  rw [hT]
  rfl

/-- Evaluation of `intCapture` on a body starting with neither whitespace
nor a sign. -/
theorem intCapture_eval_other (cs : List Char) (a : Char) (u : List Char)
    (hT : cs.dropWhile isGoSpace = a :: u) (hna : a ≠ '+') (hnb : a ≠ '-') :
    intCapture cs
      = (if (a :: u).takeWhile Char.isDigit = [] then none
         else some (false, (a :: u).takeWhile Char.isDigit)) := by
  unfold intCapture
  rw [hT]
  split
  · rename_i u' heq
    injection heq with h1 _
    exact absurd h1 hna
  · rename_i u' heq
    injection heq with h1 _
    exact absurd h1 hnb
  · rfl

/-- A nonempty prefix of a cons starts with its head. -/
theorem prefix_cons_head {r : Char} {R' R₀ : List Char} (h : R₀ <+: r :: R')
    (hne : R₀ ≠ []) : ∃ R₀', R₀ = r :: R₀' ∧ R₀' <+: R' := by
  cases R₀ with
  | nil => exact absurd rfl hne
  | cons a l =>
    obtain ⟨ha, hl⟩ := List.cons_prefix_cons.mp h
    subst ha
    exact ⟨l, rfl, hl⟩

/-- A prefix of a digit-free list is empty or starts with a
non-digit. -/
theorem prefix_head_not_digit {u u₀ : List Char}
    (hD : u.takeWhile Char.isDigit = []) (h : u₀ <+: u) :
    u₀ = [] ∨ ∃ a l, u₀ = a :: l ∧ Char.isDigit a = false := by
  cases u₀ with
  | nil => exact Or.inl rfl
  | cons a l =>
    refine Or.inr ?_
    cases u with
    | nil =>
      have h2 := List.prefix_nil.mp h
      cases h2
    | cons b u' =>
      obtain ⟨hab, _⟩ := List.cons_prefix_cons.mp h
      subst hab
      exact ⟨a, l, rfl, takeWhile_eq_nil_head Char.isDigit a u' hD⟩

/-- When no prefix of the non-space tail can parse, the whole string
strips to 0. -/
theorem strip_zero_of_head (cs : List Char) (c : Char) (u : List Char)
    (hT : cs.dropWhile isGoSpace = c :: u)
    (hcont : ∀ u₀, u₀ <+: u → parsesSignedDecWS (c :: u₀) = none) :
    stripUntilParses parsesSignedDecWS cs = 0 := by
  have hWsp : ∀ x ∈ cs.takeWhile isGoSpace, isGoSpace x = true :=
    mem_takeWhile_pred isGoSpace cs
  have hcs : cs.takeWhile isGoSpace ++ (c :: u) = cs := by
    rw [← hT]
    exact List.takeWhile_append_dropWhile isGoSpace cs
  refine strip_all_none parsesSignedDecWS cs (fun P hP => ?_)
  rw [← hcs] at hP
  rcases prefix_append_cases hP with h1 | ⟨t₀, ht₀, rfl⟩
  · exact parseWS_all_space P (fun x hx => hWsp x (h1.sublist.subset hx))
  · rcases ht₀x : t₀ with _ | ⟨q, u₀⟩
    · subst ht₀x
      rw [List.append_nil]
      exact parseWS_all_space _ hWsp
    · subst ht₀x
      obtain ⟨hq, hu₀⟩ := List.cons_prefix_cons.mp ht₀
      subst hq
      rw [parseWS_append_ws _ _ hWsp]
      exact hcont u₀ hu₀

/-- When the non-space tail decomposes as a parsing block `c :: D`
followed by junk `R` whose nonempty prefixes all break the parse, the
whole string strips to the block's value. -/
theorem strip_value_of_head (cs : List Char) (c : Char) (D R : List Char) (v : Int)
    (hT : cs.dropWhile isGoSpace = c :: (D ++ R))
    (hM : parsesSignedDecWS (c :: D) = some v)
    (hJ : ∀ R₀, R₀ ≠ [] → R₀ <+: R → parsesSignedDecWS (c :: (D ++ R₀)) = none) :
    stripUntilParses parsesSignedDecWS cs = v := by
  have hWsp : ∀ x ∈ cs.takeWhile isGoSpace, isGoSpace x = true :=
    mem_takeWhile_pred isGoSpace cs
  have hcs : (cs.takeWhile isGoSpace ++ (c :: D)) ++ R = cs := by
    rw [List.append_assoc]
    show cs.takeWhile isGoSpace ++ (c :: (D ++ R)) = cs
    rw [← hT]
    exact List.takeWhile_append_dropWhile isGoSpace cs
  rw [← hcs]
  refine strip_main parsesSignedDecWS _ (c :: D) R v ?_ ?_
  · rw [parseWS_append_ws _ _ hWsp]
    exact hM
  · intro R₀ h1 h2
    rw [List.append_assoc]
    show parsesSignedDecWS (cs.takeWhile isGoSpace ++ (c :: (D ++ R₀))) = none
    rw [parseWS_append_ws _ _ hWsp]
    exact hJ R₀ h1 h2

/-- The source's string-to-int conversion (leading regex match) agrees
with the spec's trailing-strip procedure once the parse tolerates leading
whitespace and clamps out-of-range values. -/
theorem goStringToInt_eq_strip (cs : List Char) :
    goStringToInt cs = stripUntilParses parsesSignedDecWS cs := by
  rcases hT : cs.dropWhile isGoSpace with _ | ⟨c, u⟩
  · have hall : ∀ x ∈ cs, isGoSpace x = true := List.dropWhile_eq_nil_iff.mp hT
    have h0 := strip_all_none parsesSignedDecWS cs
      (fun P hP => parseWS_all_space P (fun x hx => hall x (hP.sublist.subset hx)))
    rw [h0]
    unfold goStringToInt
    rw [intCapture_eval_nil cs hT]
  · have hcsp : isGoSpace c = false := head_dropWhile_not isGoSpace cs c u hT
    by_cases hplus : c = '+'
    · subst hplus
      rcases hD : u.takeWhile Char.isDigit with _ | ⟨d, ds⟩
      · unfold goStringToInt
        rw [intCapture_eval_plus cs u hT, hD, if_pos rfl]
        refine (strip_zero_of_head cs '+' u hT (fun u₀ hu₀ => ?_)).symm
        rw [parseWS_plus]
        rcases prefix_head_not_digit hD hu₀ with rfl | ⟨a, l, rfl, ha⟩
        · simp
        · simp [ha]
      · have hu2 : u = (d :: ds) ++ u.dropWhile Char.isDigit := by
          rw [← hD]
          exact (List.takeWhile_append_dropWhile Char.isDigit u).symm
        have hDall : (d :: ds).all Char.isDigit = true := by
          refine List.all_eq_true.mpr (fun x hx => mem_takeWhile_pred Char.isDigit u x ?_)
          rw [hD]
          exact hx
        have hT' : cs.dropWhile isGoSpace
            = '+' :: ((d :: ds) ++ u.dropWhile Char.isDigit) := by
          rw [hT]
          exact congrArg _ hu2
        unfold goStringToInt
        rw [intCapture_eval_plus cs u hT, hD, if_neg (by simp)]
        refine (strip_value_of_head cs '+' (d :: ds) (u.dropWhile Char.isDigit)
          (clampInt64 (digitsToNat (d :: ds))) hT' ?_ ?_).symm
        · rw [parseWS_plus, if_pos ⟨by simp, hDall⟩]
        · intro R₀ h1 h2
          rcases hRx : u.dropWhile Char.isDigit with _ | ⟨r, R'⟩
          · rw [hRx] at h2
            have h3 := List.prefix_nil.mp h2
            exact absurd h3 h1
          · have hrd : Char.isDigit r = false :=
              head_dropWhile_not Char.isDigit u r R' hRx
            rw [hRx] at h2
            obtain ⟨R₀', rfl, _⟩ := prefix_cons_head h2 h1
            rw [parseWS_plus, if_neg]
            intro hcond
            have h4 := hcond.2
            simp [List.all_append, hrd] at h4
    · by_cases hminus : c = '-'
      · subst hminus
        rcases hD : u.takeWhile Char.isDigit with _ | ⟨d, ds⟩
        · unfold goStringToInt
          rw [intCapture_eval_minus cs u hT, hD, if_pos rfl]
          refine (strip_zero_of_head cs '-' u hT (fun u₀ hu₀ => ?_)).symm
          rw [parseWS_minus]
          rcases prefix_head_not_digit hD hu₀ with rfl | ⟨a, l, rfl, ha⟩
          · simp
          · simp [ha]
        · have hu2 : u = (d :: ds) ++ u.dropWhile Char.isDigit := by
            rw [← hD]
            exact (List.takeWhile_append_dropWhile Char.isDigit u).symm
          have hDall : (d :: ds).all Char.isDigit = true := by
            refine List.all_eq_true.mpr
              (fun x hx => mem_takeWhile_pred Char.isDigit u x ?_)
            rw [hD]
            exact hx
          have hT' : cs.dropWhile isGoSpace
              = '-' :: ((d :: ds) ++ u.dropWhile Char.isDigit) := by
            rw [hT]
            exact congrArg _ hu2
          unfold goStringToInt
          rw [intCapture_eval_minus cs u hT, hD, if_neg (by simp)]
          refine (strip_value_of_head cs '-' (d :: ds) (u.dropWhile Char.isDigit)
            (clampInt64 (-(digitsToNat (d :: ds) : Int))) hT' ?_ ?_).symm
          · rw [parseWS_minus, if_pos ⟨by simp, hDall⟩]
          · intro R₀ h1 h2
            rcases hRx : u.dropWhile Char.isDigit with _ | ⟨r, R'⟩
            · rw [hRx] at h2
              have h3 := List.prefix_nil.mp h2
              exact absurd h3 h1
            · have hrd : Char.isDigit r = false :=
                head_dropWhile_not Char.isDigit u r R' hRx
              rw [hRx] at h2
              obtain ⟨R₀', rfl, _⟩ := prefix_cons_head h2 h1
              rw [parseWS_minus, if_neg]
              intro hcond
              have h4 := hcond.2
              simp [List.all_append, hrd] at h4
      · by_cases hdig : Char.isDigit c = true
        · have htk : (c :: u).takeWhile Char.isDigit
              = c :: u.takeWhile Char.isDigit := by
            rw [List.takeWhile_cons, if_pos hdig]
          have hu2 : u = u.takeWhile Char.isDigit ++ u.dropWhile Char.isDigit :=
            (List.takeWhile_append_dropWhile Char.isDigit u).symm
          have hDall : (c :: u.takeWhile Char.isDigit).all Char.isDigit = true := by
            refine List.all_eq_true.mpr (fun x hx => ?_)
            rcases List.mem_cons.mp hx with rfl | hx2
            · exact hdig
            · exact mem_takeWhile_pred Char.isDigit u x hx2
          have hT' : cs.dropWhile isGoSpace
              = c :: (u.takeWhile Char.isDigit ++ u.dropWhile Char.isDigit) := by
            rw [hT]
            exact congrArg _ hu2
          unfold goStringToInt
          rw [intCapture_eval_other cs c u hT hplus hminus, htk,
            if_neg (by simp)]
          refine (strip_value_of_head cs c (u.takeWhile Char.isDigit)
            (u.dropWhile Char.isDigit)
            (clampInt64 (digitsToNat (c :: u.takeWhile Char.isDigit))) hT' ?_ ?_).symm
          · rw [parseWS_other c _ hcsp hplus hminus, if_pos ⟨by simp, hDall⟩]
          · intro R₀ h1 h2
            rcases hRx : u.dropWhile Char.isDigit with _ | ⟨r, R'⟩
            · rw [hRx] at h2
              have h3 := List.prefix_nil.mp h2
              exact absurd h3 h1
            · have hrd : Char.isDigit r = false :=
                head_dropWhile_not Char.isDigit u r R' hRx
              rw [hRx] at h2
              obtain ⟨R₀', rfl, _⟩ := prefix_cons_head h2 h1
              rw [parseWS_other c _ hcsp hplus hminus, if_neg]
              intro hcond
              have h4 := hcond.2
              simp [List.all_append, hrd] at h4
        · have hdig' : Char.isDigit c = false := Bool.eq_false_iff.mpr hdig
          have htk : (c :: u).takeWhile Char.isDigit = [] := by
            rw [List.takeWhile_cons, if_neg (by simp [hdig'])]
          unfold goStringToInt
          rw [intCapture_eval_other cs c u hT hplus hminus, htk, if_pos rfl]
          refine (strip_zero_of_head cs c u hT (fun u₀ hu₀ => ?_)).symm
          rw [parseWS_other c u₀ hcsp hplus hminus, if_neg]
          intro hcond
          have h4 := hcond.2
          simp [hdig'] at h4

/-- C4 counterexample: for the string " 12" (leading space), the int
projection of the Value built from it is 12 (the `matchInt` regex skips
leading whitespace), while the claim's suffix-trimmed-prefix procedure
yields 0, because no prefix of " 12" is itself a signed decimal
integer. -/
theorem claim_C4_counterexample :
    Value.intProj fmU (newValueStr fmU " 12") = 12 ∧
    stripUntilParses parsesSignedDec " 12".data = 0 ∧
    (12 : Int) ≠ 0 := by
  refine ⟨by decide, by decide, by decide⟩

/-- C4 (amended): for every string `s`, the int projection of a Value
constructed from `s` equals the result of repeatedly stripping trailing
code points from `s` until the remainder parses as a signed decimal
integer, PROVIDED the parse tolerates leading ASCII whitespace (as the
source's `^\s*([-+]?\d+)` regex does) and clamps out-of-range values to
the int64 bounds (as the source does by discarding `ParseInt`'s range
error); the projection is 0 when no prefix parses. -/
theorem claim_C4_string_to_int (fm : FloatModel ρ) (s : String) :
    Value.intProj fm (newValueStr fm s)
      = stripUntilParses parsesSignedDecWS s.data :=
  goStringToInt_eq_strip s.data

end Awk
